import Mathlib

/-!
# Verification of the gocrc concurrency combinators

Shallow embedding of the `gocrc` Go package (file `gocrc.go`) and proofs of
its specified properties.

The package provides two generic concurrency combinators:

* `Race`: runs N workers concurrently against a shared cancellable scope,
  returns the first published outcome and cancels the rest;
* `NoRace`: runs N workers concurrently to completion, aggregates all
  outcomes at their original indices and reports a `MultiError` when at
  least one worker failed.

Modelling choices:

* Go's `error` is modelled as `Option String`: `none` is a nil error,
  `some msg` a non-nil error whose message (what `%v` prints) is `msg`.
* Go's `int` is modelled as `Int` (the `Index` of a `Result` can be `-1`).
* A worker is opaque: only the pair `(value, err)` it returns matters, so
  scheduling events carry that pair rather than a function.
* Concurrency is modelled operationally.  For `Race` the state machine
  `RaceState`/`raceStep` mirrors the goroutine structure of the source
  (per-worker program counters, the capacity-1 channel, the derived
  cancellable scope, the external context and the main `select`); an
  execution is a trace of scheduler-chosen events, and `RaceReachable`
  is the set of states some interleaving can produce.  For `NoRace` the
  mutex serialises the per-worker writes, so an execution is a list of
  index-addressed writes performed in an arbitrary completion order; the
  `wg.Wait` barrier is the hypothesis that every worker index occurs in
  the trace exactly once (a permutation of `List.range n`).
-/

set_option autoImplicit false

namespace Gocrc

/-- `Result[T]` from the source: the outcome of a worker's execution.
`Value` is the produced value (the zero value of `T` when unset),
`Err` the worker's error (`none` = Go `nil`), `Index` the worker's
position in the input sequence (`-1` on `Race`'s context-cancel path). -/
structure Result (T : Type) where
  Value : T
  Err : Option String
  Index : Int
deriving Repr, DecidableEq

/-- `MultiError[T]` from the source: a collection of results carrying the
errors of failed workers. -/
structure MultiError (T : Type) where
  Results : List (Result T)
deriving Repr, DecidableEq

/-- `(*MultiError[T]).Error()` from the source: starts from the literal
`"multiple errors occurred:"` and, scanning `Results` in order, appends
`"\n - Worker [<index>]: <error message>"` for each entry whose `Err` is
non-nil, skipping nil-error entries. -/
def MultiError.Error {T : Type} (m : MultiError T) : String :=
  m.Results.foldl
    (fun sb res =>
      match res.Err with
      | some msg => sb ++ "\n - Worker [" ++ toString res.Index ++ "]: " ++ msg
      | none => sb)
    "multiple errors occurred:"

/-- The line `MultiError.Error` emits for one failing entry. -/
def errLine {T : Type} (r : Result T) : String :=
  "\n - Worker [" ++ toString r.Index ++ "]: " ++ r.Err.getD ""

/-- Whether a result carries a non-nil error. -/
def failing {T : Type} (r : Result T) : Bool :=
  r.Err.isSome

theorem string_join_cons (a : String) (l : List String) :
    String.join (a :: l) = a ++ String.join l := by
  apply String.ext
  simp [String.data_join, String.data_append]

theorem multiError_foldl_eq {T : Type} (l : List (Result T)) (s : String) :
    l.foldl
      (fun sb res =>
        match res.Err with
        | some msg => sb ++ "\n - Worker [" ++ toString res.Index ++ "]: " ++ msg
        | none => sb) s
      = s ++ String.join ((l.filter failing).map errLine) := by
  induction l generalizing s with
  | nil => simp [String.join, String.append_empty]
  | cons r l ih =>
    cases h : r.Err with
    | none =>
      simp only [List.foldl_cons, h]
      rw [ih]
      have hfil : (r :: l).filter failing = l.filter failing := by
        simp [List.filter_cons, failing, h]
      rw [hfil]
    | some msg =>
      simp only [List.foldl_cons, h]
      rw [ih]
      have hfil : (r :: l).filter failing = r :: l.filter failing := by
        simp [List.filter_cons, failing, h]
      rw [hfil, List.map_cons, string_join_cons]
      have hline : errLine r = "\n - Worker [" ++ toString r.Index ++ "]: " ++ msg := by
        simp [errLine, h]
      rw [hline]
      simp [String.append_assoc]

/-- C5: for every `MultiError` value, `Error()` renders exactly the literal
`"multiple errors occurred:"` followed by one `"\n - Worker [<index>]: <msg>"`
line per failing entry of `Results`, in the order the entries appear in
`Results`, with the succeeding entries contributing nothing. -/
theorem multiError_rendering {T : Type} (m : MultiError T) :
    m.Error =
      "multiple errors occurred:" ++
        String.join ((m.Results.filter failing).map errLine) := by
  unfold MultiError.Error
  exact multiError_foldl_eq m.Results "multiple errors occurred:"

/-- C10: `Error()` silently skips nil-error entries, so when `Results` is
empty or carries only nil-error entries the rendered string is exactly
`"multiple errors occurred:"`, and the method is total on such inputs. -/
theorem multiError_all_nil {T : Type} (m : MultiError T)
    (h : ∀ r ∈ m.Results, r.Err = none) :
    m.Error = "multiple errors occurred:" := by
  rw [multiError_rendering]
  have hf : m.Results.filter failing = [] := by
    apply List.filter_eq_nil_iff.mpr
    intro r hr
    simp [failing, h r hr]
  have hj : String.join (List.map errLine (List.filter failing m.Results)) = "" := by
    rw [hf]; rfl
  rw [hj, String.append_empty]

/-- C10 witness: a `MultiError` holding one nil-error entry and one
evaluation of the hypothesis at it. -/
theorem multiError_all_nil_witness :
    (MultiError.Error ⟨[⟨(37 : Nat), none, 5⟩]⟩) = "multiple errors occurred:" :=
  multiError_all_nil ⟨[⟨(37 : Nat), none, 5⟩]⟩ (by decide)

/-! ## NoRace

`NoRace` launches one goroutine per worker; each goroutine computes
`val, err := worker(ctx)` and then, under the shared mutex, writes
`Result{val, err, index}` into `results[index]` and or-accumulates
`hasError`.  `wg.Wait()` returns only after every goroutine has run its
critical section once.  Since the mutex serialises the critical sections,
an execution is fully described by the list of critical sections in the
order the scheduler ran them: a trace entry `(i, v, e)` is worker `i`'s
write of its own outcome `(v, e)`.  The barrier is the hypothesis that the
trace's indices are a permutation of `List.range n`. -/

/-- One serialised critical section of a `NoRace` goroutine (`gocrc.go`
lines 92-101): `results[index] = Result{Value: val, Err: err, Index: index}`
and `hasError = hasError || (err != nil)`. -/
def noRaceWrite {T : Type} (st : List (Result T) × Bool)
    (w : Nat × T × Option String) : List (Result T) × Bool :=
  (st.1.set w.1 ⟨w.2.1, w.2.2, (w.1 : Int)⟩, st.2 || w.2.2.isSome)

/-- The state before any goroutine has run: `make([]Result[T], len(workers))`
zero-initialises every slot (zero value of `T`, nil error, index 0), and
`hasError` starts false. -/
def noRaceInit (T : Type) [Inhabited T] (n : Nat) : List (Result T) × Bool :=
  (List.replicate n ⟨default, none, 0⟩, false)

/-- `NoRace` from the source, as a function of the number of workers and of
the serialised write trace of one execution.  Empty input returns
`(nil, nil)`; otherwise all writes are applied and, when `hasError` is set,
the second component is the `MultiError` collecting the results whose
`Err` is non-nil, in `results` order. -/
def NoRace (T : Type) [Inhabited T] (n : Nat)
    (trace : List (Nat × T × Option String)) :
    List (Result T) × Option (MultiError T) :=
  if n = 0 then ([], none)
  else
    let st := trace.foldl noRaceWrite (noRaceInit T n)
    if st.2 then (st.1, some ⟨st.1.filter failing⟩) else (st.1, none)

theorem noRace_foldl_length {T : Type} (trace : List (Nat × T × Option String))
    (st : List (Result T) × Bool) :
    (trace.foldl noRaceWrite st).1.length = st.1.length := by
  induction trace generalizing st with
  | nil => rfl
  | cons w tr ih =>
    rw [List.foldl_cons, ih]
    simp [noRaceWrite]

theorem noRace_foldl_untouched {T : Type}
    (trace : List (Nat × T × Option String)) (st : List (Result T) × Bool)
    (i : Nat) (hi : i ∉ trace.map (·.1)) :
    (trace.foldl noRaceWrite st).1[i]? = st.1[i]? := by
  induction trace generalizing st with
  | nil => rfl
  | cons w tr ih =>
    rw [List.foldl_cons]
    have hi1 : i ∉ tr.map (·.1) := by
      intro h; exact hi (by simp [h])
    have hne : w.1 ≠ i := by
      intro h; exact hi (by simp [h])
    rw [ih _ hi1]
    exact List.getElem?_set_ne hne

theorem noRace_foldl_write {T : Type}
    (trace : List (Nat × T × Option String)) (st : List (Result T) × Bool)
    (hnd : (trace.map (·.1)).Nodup)
    (w : Nat × T × Option String) (hw : w ∈ trace) (hlt : w.1 < st.1.length) :
    (trace.foldl noRaceWrite st).1[w.1]? = some ⟨w.2.1, w.2.2, (w.1 : Int)⟩ := by
  induction trace generalizing st with
  | nil => cases hw
  | cons w0 tr ih =>
    rw [List.foldl_cons]
    rw [List.map_cons, List.nodup_cons] at hnd
    rcases List.mem_cons.mp hw with h | h
    · subst h
      rw [noRace_foldl_untouched tr _ w.1 hnd.1]
      exact List.getElem?_set_eq_of_lt _ hlt
    · apply ih _ hnd.2 h
      simpa [noRaceWrite] using hlt

theorem noRace_foldl_flag {T : Type}
    (trace : List (Nat × T × Option String)) (st : List (Result T) × Bool) :
    (trace.foldl noRaceWrite st).2 = (st.2 || trace.any (fun w => w.2.2.isSome)) := by
  induction trace generalizing st with
  | nil => simp
  | cons w tr ih =>
    rw [List.foldl_cons, ih]
    simp [noRaceWrite, Bool.or_assoc]

/-- The first component of `NoRace` is the folded result list (both branches
of the `hasError` test return the same `results`). -/
theorem noRace_fst {T : Type} [Inhabited T] (n : Nat)
    (trace : List (Nat × T × Option String)) (hn : n ≠ 0) :
    (NoRace T n trace).1 = (trace.foldl noRaceWrite (noRaceInit T n)).1 := by
  unfold NoRace
  rw [if_neg hn]
  by_cases h : (trace.foldl noRaceWrite (noRaceInit T n)).2 <;> simp [h]

/-- Index `w.1` of any trace entry is below `n` when the trace covers
`List.range n`. -/
theorem trace_index_lt {T : Type} (n : Nat)
    (trace : List (Nat × T × Option String))
    (hperm : (trace.map (·.1)).Perm (List.range n))
    (w : Nat × T × Option String) (hw : w ∈ trace) : w.1 < n := by
  have : w.1 ∈ trace.map (·.1) := List.mem_map.mpr ⟨w, hw, rfl⟩
  have := hperm.mem_iff.mp this
  exact List.mem_range.mp this

/-- Every result slot of a complete `NoRace` execution holds the writing
worker's own outcome. -/
theorem noRace_results_spec {T : Type} [Inhabited T] (n : Nat)
    (trace : List (Nat × T × Option String))
    (hperm : (trace.map (·.1)).Perm (List.range n)) :
    ∀ w ∈ trace, (NoRace T n trace).1[w.1]? = some ⟨w.2.1, w.2.2, (w.1 : Int)⟩ := by
  intro w hw
  have hlt : w.1 < n := trace_index_lt n trace hperm w hw
  have hn : n ≠ 0 := by omega
  rw [noRace_fst n trace hn]
  apply noRace_foldl_write trace _ ((List.nodup_range n).perm hperm.symm) w hw
  simp [noRaceInit]
  omega

/-- Conversely, every entry of the output of a complete `NoRace` execution
was written by the worker whose index it carries. -/
theorem noRace_results_inv {T : Type} [Inhabited T] (n : Nat)
    (trace : List (Nat × T × Option String))
    (hperm : (trace.map (·.1)).Perm (List.range n)) (hn : n ≠ 0) :
    ∀ (i : Nat) (r : Result T), (NoRace T n trace).1[i]? = some r →
      r.Index = (i : Int) ∧ (i, r.Value, r.Err) ∈ trace := by
  intro i r hr
  have hlen : (NoRace T n trace).1.length = n := by
    rw [noRace_fst n trace hn, noRace_foldl_length]
    simp [noRaceInit]
  have hi : i < n := by
    by_contra h
    rw [List.getElem?_eq_none (by omega)] at hr
    cases hr
  have hmem : i ∈ trace.map (·.1) :=
    hperm.mem_iff.mpr (List.mem_range.mpr hi)
  obtain ⟨w, hw, hwi⟩ := List.mem_map.mp hmem
  have := noRace_results_spec n trace hperm w hw
  rw [hwi] at this
  rw [this] at hr
  cases hr
  constructor
  · rfl
  · have : w = (i, w.2.1, w.2.2) := by
      rw [← hwi]
    rw [← this]
    exact hw

/-- The output sequence of a complete `NoRace` execution is strictly
ascending in `Index`. -/
theorem noRace_pairwise {T : Type} [Inhabited T] (n : Nat)
    (trace : List (Nat × T × Option String))
    (hperm : (trace.map (·.1)).Perm (List.range n)) (hn : n ≠ 0) :
    (NoRace T n trace).1.Pairwise (fun a b => a.Index < b.Index) := by
  rw [List.pairwise_iff_getElem]
  intro i j hi hj hij
  have h1 := noRace_results_inv n trace hperm hn i _ (List.getElem?_eq_getElem hi)
  have h2 := noRace_results_inv n trace hperm hn j _ (List.getElem?_eq_getElem hj)
  rw [h1.1, h2.1]
  exact_mod_cast hij

/-- The second component of `NoRace`: a `MultiError` over the failing
entries of the folded result list exactly when some write carried a
non-nil error. -/
theorem noRace_snd_eq {T : Type} [Inhabited T] (n : Nat)
    (trace : List (Nat × T × Option String)) (hn : n ≠ 0) :
    (NoRace T n trace).2 =
      if trace.any (fun w => w.2.2.isSome) then
        some ⟨(trace.foldl noRaceWrite (noRaceInit T n)).1.filter failing⟩
      else none := by
  have hflag : (trace.foldl noRaceWrite (noRaceInit T n)).2
      = trace.any (fun w => w.2.2.isSome) := by
    rw [noRace_foldl_flag]
    simp [noRaceInit]
  unfold NoRace
  rw [if_neg hn]
  by_cases h : trace.any (fun w => w.2.2.isSome) <;> simp [hflag, h]

/-- C2: for every non-empty worker list and every completion order in which
each worker writes exactly once, the sequence returned by `NoRace` has one
entry per worker; the slot of worker `i` holds `Index = i` and exactly the
`Value`/`Err` that worker `i` returned, and every output entry is accounted
for by its worker — regardless of the order of the trace. -/
theorem noRace_order_preservation {T : Type} [Inhabited T] (n : Nat)
    (trace : List (Nat × T × Option String))
    (hn : 0 < n) (hperm : (trace.map (·.1)).Perm (List.range n)) :
    (NoRace T n trace).1.length = n ∧
    (∀ w ∈ trace, (NoRace T n trace).1[w.1]? = some ⟨w.2.1, w.2.2, (w.1 : Int)⟩) ∧
    (∀ (i : Nat) (r : Result T), (NoRace T n trace).1[i]? = some r →
      r.Index = (i : Int) ∧ (i, r.Value, r.Err) ∈ trace) := by
  have hn' : n ≠ 0 := by omega
  refine ⟨?_, noRace_results_spec n trace hperm, noRace_results_inv n trace hperm hn'⟩
  rw [noRace_fst n trace hn', noRace_foldl_length]
  simp [noRaceInit]

/-- C2 witness: two workers completing in reversed order (worker 1 writes
first); the output still has worker 0's outcome at slot 0 and worker 1's at
slot 1. -/
theorem noRace_order_preservation_witness :
    (NoRace Bool 2 [(1, false, none), (0, true, some "boom")]).1.length = 2 ∧
    (NoRace Bool 2 [(1, false, none), (0, true, some "boom")]).1[0]?
      = some ⟨true, some "boom", (0 : Int)⟩ ∧
    (NoRace Bool 2 [(1, false, none), (0, true, some "boom")]).1[1]?
      = some ⟨false, none, (1 : Int)⟩ :=
  ⟨(noRace_order_preservation 2 _ (by decide) (by decide)).1,
   (noRace_order_preservation 2 _ (by decide) (by decide)).2.1
      (0, true, some "boom") (by decide),
   (noRace_order_preservation 2 _ (by decide) (by decide)).2.1
      (1, false, none) (by decide)⟩

/-- C1: for every non-empty worker list and complete execution, `NoRace`
returns a non-nil error iff at least one worker returned a non-nil error;
when it does, the error is a `MultiError` whose `Results` holds exactly the
failing entries of the output (no succeeding entry), in ascending original
index order, while the first return value is still the full ordered result
sequence including the successes. -/
theorem noRace_error_aggregation {T : Type} [Inhabited T] (n : Nat)
    (trace : List (Nat × T × Option String))
    (hn : 0 < n) (hperm : (trace.map (·.1)).Perm (List.range n)) :
    ((NoRace T n trace).2 ≠ none ↔ ∃ w ∈ trace, w.2.2.isSome = true) ∧
    (∀ me : MultiError T, (NoRace T n trace).2 = some me →
      (∀ r : Result T, r ∈ me.Results ↔ r ∈ (NoRace T n trace).1 ∧ failing r = true) ∧
      me.Results.Pairwise (fun a b => a.Index < b.Index)) ∧
    (NoRace T n trace).1.length = n ∧
    (∀ w ∈ trace, (NoRace T n trace).1[w.1]? = some ⟨w.2.1, w.2.2, (w.1 : Int)⟩) := by
  have hn' : n ≠ 0 := by omega
  have hsnd := noRace_snd_eq n trace hn'
  refine ⟨?_, ?_, ?_, noRace_results_spec n trace hperm⟩
  · rw [hsnd, ← List.any_eq_true]
    by_cases h : trace.any (fun w => w.2.2.isSome) <;> simp [h]
  · intro me hme
    rw [hsnd] at hme
    by_cases h : trace.any (fun w => w.2.2.isSome)
    · rw [if_pos h] at hme
      cases hme
      constructor
      · intro r
        rw [← noRace_fst n trace hn']
        exact List.mem_filter
      · exact (noRace_pairwise n trace hperm hn').sublist
          (by rw [noRace_fst n trace hn']; exact List.filter_sublist _)
    · rw [if_neg h] at hme
      cases hme
  · rw [noRace_fst n trace hn', noRace_foldl_length]
    simp [noRaceInit]

/-- C1 witness: with worker 0 failing and worker 1 succeeding (worker 1
finishing first), `NoRace` reports a non-nil error. -/
theorem noRace_error_aggregation_witness :
    (NoRace Bool 2 [(1, false, none), (0, true, some "boom")]).2 ≠ none :=
  (noRace_error_aggregation 2 [(1, false, none), (0, true, some "boom")]
      (by decide) (by decide)).1.mpr (by decide)

/-! ## Race

`Race` (gocrc.go lines 39-70) derives a cancellable child scope `raceCtx`
from the caller's `ctx` (with `defer cancel()`), creates a channel of
capacity 1, launches one goroutine per worker, and then `select`s between
the channel and `ctx.Done()`.  Each goroutine computes its result and then
`select`s between sending it on the channel (possible while the buffer has
space) and `raceCtx.Done()` (possible once the child scope is cancelled);
a successful send calls `cancel()`.

The embedding is a small-step state machine.  A state records the program
counter of every worker goroutine, the channel buffer content, whether the
child scope (`raceCancelled`) and the caller's context (`ctxCancelled`)
are cancelled, and whether (and how) the main `select` has returned.  The
scheduler's choices form a trace of events; `RaceReachable` is the set of
states some interleaving produces.  Go's semantics fix the enabledness of
each event: a buffered send is ready iff the buffer has space, a receive
iff it is non-empty, `Done()` iff the corresponding scope is cancelled,
and cancelling a parent context cancels the derived child. -/

/-- Program counter of one `Race` worker goroutine: still computing;
finished computing `res` and sitting at the `select`; sent `res` on the
channel (and called `cancel()`); or discarded `res` via `raceCtx.Done()`. -/
inductive WStatus (T : Type) where
  | running : WStatus T
  | finished : Result T → WStatus T
  | sent : Result T → WStatus T
  | gaveUp : Result T → WStatus T
deriving Repr, DecidableEq

/-- Whether this worker's send on the completion channel succeeded. -/
def WStatus.isSent {T : Type} : WStatus T → Bool
  | .sent _ => true
  | _ => false

/-- The result a worker has computed, if it is past its worker call. -/
def WStatus.res! {T : Type} : WStatus T → Option (Result T)
  | .running => none
  | .finished r => some r
  | .sent r => some r
  | .gaveUp r => some r

/-- Which arm of the main `select` produced the return value. -/
inductive RetBranch where
  | chanWin : RetBranch
  | ctxDone : RetBranch
deriving Repr, DecidableEq

/-- Global state of one `Race` call: worker program counters, the
capacity-1 channel buffer, the derived scope's and the caller context's
cancellation flags, and the main `select`'s outcome (branch, `Result`,
error), `none` while `Race` has not yet returned. -/
structure RaceState (T : Type) where
  workers : List (WStatus T)
  chan : Option (Result T)
  raceCancelled : Bool
  ctxCancelled : Bool
  returned : Option (RetBranch × Result T × Option String)
deriving Repr, DecidableEq

/-- A scheduler event: worker `i` finishes its computation with `(v, e)`;
worker `i`'s send wins its `select`; worker `i` takes the `raceCtx.Done()`
arm; the caller's context is cancelled externally; the main `select` takes
the channel arm; the main `select` takes the `ctx.Done()` arm. -/
inductive REvent (T : Type) where
  | finish : Nat → T → Option String → REvent T
  | send : Nat → REvent T
  | giveUp : Nat → REvent T
  | extCancel : REvent T
  | mainRecv : REvent T
  | mainCtxDone : REvent T
deriving Repr, DecidableEq

/-- Initial state after the `go` statements: all workers running, empty
channel, live scope, live context, main `select` pending. -/
def raceInit (T : Type) (n : Nat) : RaceState T :=
  ⟨List.replicate n .running, none, false, false, none⟩

/-- One scheduler step of `Race`.  `none` means the event is not enabled in
`s`.  `finish` records the worker's own return values together with its
position (`res := Result[T]{Value: val, Err: err, Index: index}`, line 54);
`send` requires buffer space and calls `cancel()` (lines 56-57); `giveUp`
requires the child scope cancelled (line 58); `extCancel` cancels the
caller's context, which also cancels the derived child scope; `mainRecv`
returns `res, res.Err` (line 66) and runs the deferred `cancel()`;
`mainCtxDone` returns `Result[T]{Index: -1, Err: ctx.Err()}, ctx.Err()`
(line 68) and runs the deferred `cancel()`. -/
def raceStep {T : Type} [Inhabited T] (ctxErr : String) (s : RaceState T) :
    REvent T → Option (RaceState T)
  | .finish i v e =>
    match s.workers[i]? with
    | some .running =>
      some { s with workers := s.workers.set i (.finished ⟨v, e, (i : Int)⟩) }
    | _ => none
  | .send i =>
    match s.workers[i]?, s.chan with
    | some (.finished r), none =>
      some { s with workers := s.workers.set i (.sent r), chan := some r,
                    raceCancelled := true }
    | _, _ => none
  | .giveUp i =>
    match s.workers[i]?, s.raceCancelled with
    | some (.finished r), true =>
      some { s with workers := s.workers.set i (.gaveUp r) }
    | _, _ => none
  | .extCancel =>
    match s.ctxCancelled with
    | false => some { s with ctxCancelled := true, raceCancelled := true }
    | true => none
  | .mainRecv =>
    match s.returned, s.chan with
    | none, some r =>
      some { s with chan := none, raceCancelled := true,
                    returned := some (.chanWin, r, r.Err) }
    | _, _ => none
  | .mainCtxDone =>
    match s.returned, s.ctxCancelled with
    | none, true =>
      some { s with raceCancelled := true,
                    returned := some (.ctxDone, ⟨default, some ctxErr, -1⟩, some ctxErr) }
    | _, _ => none

/-- Run a trace of scheduler events from a state; `none` if some event is
not enabled where it occurs. -/
def runTrace {T : Type} [Inhabited T] (ctxErr : String) (s : RaceState T) :
    List (REvent T) → Option (RaceState T)
  | [] => some s
  | e :: tr =>
    match raceStep ctxErr s e with
    | some s' => runTrace ctxErr s' tr
    | none => none

/-- States of a `Race` call over `n` workers that some interleaving can
produce. -/
inductive RaceReachable {T : Type} [Inhabited T] (n : Nat) (ctxErr : String) :
    RaceState T → Prop where
  | init : RaceReachable n ctxErr (raceInit T n)
  | step : ∀ {s s' : RaceState T} {e : REvent T},
      RaceReachable n ctxErr s → raceStep ctxErr s e = some s' →
      RaceReachable n ctxErr s'

/-- `Race` from the source, as a function of the worker count, the
caller-context's cancellation error and one scheduler trace: with zero
workers it returns `Result[T]{}, nil` at once, consulting no scheduler
(lines 40-42); otherwise it returns the pair recorded by the main
`select`, or `none` when the trace is invalid or `Race` is still blocked
at the `select`. -/
def Race (T : Type) [Inhabited T] (n : Nat) (ctxErr : String)
    (tr : List (REvent T)) : Option (Result T × Option String) :=
  if n = 0 then some (⟨default, none, 0⟩, none)
  else
    match runTrace ctxErr (raceInit T n) tr with
    | some s =>
      match s.returned with
      | some x => some (x.2.1, x.2.2)
      | none => none
    | none => none

/-- Number of workers whose publish to the completion channel succeeded. -/
def sentCount {T : Type} (s : RaceState T) : Nat :=
  s.workers.countP (fun w => w.isSent)

/-- No worker's publish to the completion channel has succeeded. -/
def noSent {T : Type} (s : RaceState T) : Bool :=
  s.workers.all (fun w => !w.isSent)

theorem mem_of_get? {α : Type} {l : List α} {i : Nat} {a : α}
    (h : l[i]? = some a) : a ∈ l := by
  have hi := (List.getElem?_eq_some.mp h).1
  rw [List.getElem?_eq_getElem hi] at h
  cases h
  exact List.getElem_mem hi

theorem countP_set_same {α : Type} (p : α → Bool) (l : List α) (i : Nat)
    (a b : α) (ha : l[i]? = some a) (hp : p a = p b) :
    (l.set i b).countP p = l.countP p := by
  induction l generalizing i with
  | nil => cases ha
  | cons x xs ih =>
    cases i with
    | zero =>
      have hx : x = a := by
        simpa using ha
      subst hx
      simp [List.countP_cons, hp]
    | succ i =>
      have ha' : xs[i]? = some a := by
        simpa using ha
      simp [List.countP_cons, ih i ha']

theorem countP_set_incr {α : Type} (p : α → Bool) (l : List α) (i : Nat)
    (a b : α) (ha : l[i]? = some a) (hpa : p a = false) (hpb : p b = true) :
    (l.set i b).countP p = l.countP p + 1 := by
  induction l generalizing i with
  | nil => cases ha
  | cons x xs ih =>
    cases i with
    | zero =>
      have hx : x = a := by
        simpa using ha
      subst hx
      simp [List.countP_cons, hpa, hpb]
    | succ i =>
      have ha' : xs[i]? = some a := by
        simpa using ha
      simp only [List.set_cons_succ, List.countP_cons, ih i ha']
      omega

/-- The inductive invariant of the `Race` state machine:

* `len`: there is one goroutine per worker;
* `idx`: the result stored at a worker's program counter carries that
  worker's own position as its `Index`;
* `chanSent`: whatever sits in the channel buffer was put there by a
  worker whose send succeeded;
* `retChan`: a return through the channel arm pairs the received `Result`
  with exactly its own `Err`, and that `Result` was published by some
  worker whose send succeeded;
* `retCtx`: a return through the `ctx.Done()` arm carries the zero value,
  `Index = -1` and the context's cancellation error (in both positions),
  and can only happen once the caller's context is cancelled;
* `retCancel`: by the time `Race` has returned, the derived child scope is
  cancelled (the deferred `cancel()`);
* `sentBound`: while `Race` has not returned, the number of successful
  publishes is one when the buffer is full and zero when it is empty — in
  particular never two. -/
structure RaceInv (T : Type) [Inhabited T] (n : Nat) (ctxErr : String)
    (s : RaceState T) : Prop where
  len : s.workers.length = n
  idx : ∀ (i : Nat) (st : WStatus T), s.workers[i]? = some st →
    ∀ r : Result T, st.res! = some r → r.Index = (i : Int)
  chanSent : ∀ r : Result T, s.chan = some r →
    ∃ i : Nat, s.workers[i]? = some (.sent r)
  retChan : ∀ (r : Result T) (e : Option String),
    s.returned = some (.chanWin, r, e) →
    e = r.Err ∧ ∃ i : Nat, s.workers[i]? = some (.sent r)
  retCtx : ∀ (r : Result T) (e : Option String),
    s.returned = some (.ctxDone, r, e) →
    r = ⟨default, some ctxErr, -1⟩ ∧ e = some ctxErr ∧ s.ctxCancelled = true
  retCancel : s.returned ≠ none → s.raceCancelled = true
  sentBound : s.returned = none →
    sentCount s = (if s.chan.isSome then 1 else 0)

theorem raceInit_inv (T : Type) [Inhabited T] (n : Nat) (ctxErr : String) :
    RaceInv T n ctxErr (raceInit T n) := by
  refine ⟨?_, ?_, ?_, ?_, ?_, ?_, ?_⟩
  · simp [raceInit]
  · intro i st hst r hr
    have : st = WStatus.running := by
      have := mem_of_get? hst
      exact (List.mem_replicate.mp this).2
    subst this
    cases hr
  · intro r hr
    cases hr
  · intro r e hr
    cases hr
  · intro r e hr
    cases hr
  · intro hr
    exact absurd rfl hr
  · intro _
    simp only [raceInit, sentCount]
    rw [List.countP_eq_zero.mpr]
    · rfl
    · intro a ha
      have := (List.mem_replicate.mp ha).2
      subst this
      simp [WStatus.isSent]

/-- A worker whose send succeeded keeps that status when any other
worker's program counter changes. -/
theorem sent_preserved_set {T : Type} {l : List (WStatus T)} {i : Nat}
    {st : WStatus T} (hi : l[i]? = some st) (hst : st.isSent = false)
    (b : WStatus T) {r : Result T}
    (h : ∃ j : Nat, l[j]? = some (WStatus.sent r)) :
    ∃ j : Nat, (l.set i b)[j]? = some (WStatus.sent r) := by
  obtain ⟨j, hj⟩ := h
  refine ⟨j, ?_⟩
  have hne : i ≠ j := by
    intro he
    subst he
    rw [hi] at hj
    injection hj with h2
    subst h2
    simp [WStatus.isSent] at hst
  rw [List.getElem?_set_ne hne]
  exact hj

/-- `raceStep` preserves the invariant. -/
theorem raceStep_inv {T : Type} [Inhabited T] {n : Nat} {ctxErr : String}
    {s s' : RaceState T} {e : REvent T}
    (hinv : RaceInv T n ctxErr s) (hstep : raceStep ctxErr s e = some s') :
    RaceInv T n ctxErr s' := by
  cases e with
  | finish i v e0 =>
    simp only [raceStep] at hstep
    split at hstep <;> cases hstep
    rename_i hw
    have hilen : i < s.workers.length := (List.getElem?_eq_some.mp hw).1
    refine ⟨?_, ?_, ?_, ?_, ?_, ?_, ?_⟩
    · rw [List.length_set]
      exact hinv.len
    · intro j st hst r hr
      by_cases hji : i = j
      · subst hji
        rw [List.getElem?_set_eq_of_lt _ hilen] at hst
        injection hst with hst
        subst hst
        injection hr with hr
        subst hr
        rfl
      · rw [List.getElem?_set_ne hji] at hst
        exact hinv.idx j st hst r hr
    · intro r hr
      exact sent_preserved_set hw rfl _ (hinv.chanSent r hr)
    · intro r e hr
      obtain ⟨he, hex⟩ := hinv.retChan r e hr
      exact ⟨he, sent_preserved_set hw rfl _ hex⟩
    · intro r e hr
      exact hinv.retCtx r e hr
    · exact hinv.retCancel
    · intro hr
      show List.countP (fun w => w.isSent)
          (s.workers.set i (WStatus.finished ⟨v, e0, (i : Int)⟩))
        = if s.chan.isSome = true then 1 else 0
      rw [countP_set_same (fun w : WStatus T => w.isSent) s.workers i WStatus.running
          (WStatus.finished ⟨v, e0, (i : Int)⟩) hw rfl]
      exact hinv.sentBound hr
  | send i =>
    simp only [raceStep] at hstep
    split at hstep <;> cases hstep
    rename_i r hw hc
    have hilen : i < s.workers.length := (List.getElem?_eq_some.mp hw).1
    refine ⟨?_, ?_, ?_, ?_, ?_, ?_, ?_⟩
    · rw [List.length_set]
      exact hinv.len
    · intro j st hst r' hr'
      by_cases hji : i = j
      · subst hji
        rw [List.getElem?_set_eq_of_lt _ hilen] at hst
        injection hst with hst
        subst hst
        have hrr : r = r' := by
          injection hr'
        rw [← hrr]
        exact hinv.idx i (WStatus.finished r) hw r rfl
      · rw [List.getElem?_set_ne hji] at hst
        exact hinv.idx j st hst r' hr'
    · intro r' hr'
      have hrr : r = r' := by
        injection hr'
      rw [← hrr]
      exact ⟨i, List.getElem?_set_eq_of_lt _ hilen⟩
    · intro r' e' hr'
      obtain ⟨he, hex⟩ := hinv.retChan r' e' hr'
      exact ⟨he, sent_preserved_set hw rfl _ hex⟩
    · intro r' e' hr'
      exact hinv.retCtx r' e' hr'
    · intro _
      rfl
    · intro hr
      have hold := hinv.sentBound hr
      rw [hc] at hold
      simp only [sentCount, Option.isSome_none, Bool.false_eq_true, if_false] at hold
      show List.countP (fun w => w.isSent) (s.workers.set i (WStatus.sent r))
        = if (some r).isSome = true then 1 else 0
      rw [countP_set_incr (fun w : WStatus T => w.isSent) s.workers i
          (WStatus.finished r) (WStatus.sent r) hw rfl rfl, hold]
      rfl
  | giveUp i =>
    simp only [raceStep] at hstep
    split at hstep <;> cases hstep
    rename_i r hw hrc
    have hilen : i < s.workers.length := (List.getElem?_eq_some.mp hw).1
    refine ⟨?_, ?_, ?_, ?_, ?_, ?_, ?_⟩
    · rw [List.length_set]
      exact hinv.len
    · intro j st hst r' hr'
      by_cases hji : i = j
      · subst hji
        rw [List.getElem?_set_eq_of_lt _ hilen] at hst
        injection hst with hst
        subst hst
        have hrr : r = r' := by
          injection hr'
        rw [← hrr]
        exact hinv.idx i (WStatus.finished r) hw r rfl
      · rw [List.getElem?_set_ne hji] at hst
        exact hinv.idx j st hst r' hr'
    · intro r' hr'
      exact sent_preserved_set hw rfl _ (hinv.chanSent r' hr')
    · intro r' e' hr'
      obtain ⟨he, hex⟩ := hinv.retChan r' e' hr'
      exact ⟨he, sent_preserved_set hw rfl _ hex⟩
    · intro r' e' hr'
      exact hinv.retCtx r' e' hr'
    · exact hinv.retCancel
    · intro hr
      show List.countP (fun w => w.isSent) (s.workers.set i (WStatus.gaveUp r))
        = if s.chan.isSome = true then 1 else 0
      rw [countP_set_same (fun w : WStatus T => w.isSent) s.workers i
          (WStatus.finished r) (WStatus.gaveUp r) hw rfl]
      exact hinv.sentBound hr
  | extCancel =>
    simp only [raceStep] at hstep
    split at hstep <;> cases hstep
    refine ⟨hinv.len, hinv.idx, hinv.chanSent, hinv.retChan, ?_, ?_, hinv.sentBound⟩
    · intro r e hr
      obtain ⟨h1, h2, _⟩ := hinv.retCtx r e hr
      exact ⟨h1, h2, rfl⟩
    · intro _
      rfl
  | mainRecv =>
    simp only [raceStep] at hstep
    split at hstep <;> cases hstep
    rename_i hret0 hc
    refine ⟨hinv.len, hinv.idx, ?_, ?_, ?_, ?_, ?_⟩
    · intro r' hr'
      cases hr'
    · intro r' e' hr'
      injection hr' with hr'
      injection hr' with hbr hre
      injection hre with hr2 he2
      subst hr2
      subst he2
      exact ⟨rfl, hinv.chanSent _ hc⟩
    · intro r' e' hr'
      injection hr' with hr'
      injection hr' with hbr _
      cases hbr
    · intro _
      rfl
    · intro hr
      cases hr
  | mainCtxDone =>
    simp only [raceStep] at hstep
    split at hstep <;> cases hstep
    rename_i hret0 hcc
    refine ⟨hinv.len, hinv.idx, hinv.chanSent, ?_, ?_, ?_, ?_⟩
    · intro r' e' hr'
      injection hr' with hr'
      injection hr' with hbr _
      cases hbr
    · intro r' e' hr'
      injection hr' with hr'
      injection hr' with hbr hre
      injection hre with hr2 he2
      subst hr2
      subst he2
      exact ⟨rfl, rfl, hcc⟩
    · intro _
      rfl
    · intro hr
      cases hr

/-- Every reachable state satisfies the invariant. -/
theorem raceReachable_inv {T : Type} [Inhabited T] {n : Nat} {ctxErr : String}
    {s : RaceState T} (h : RaceReachable n ctxErr s) : RaceInv T n ctxErr s := by
  induction h with
  | init => exact raceInit_inv T n ctxErr
  | step _ hstep ih => exact raceStep_inv ih hstep

/-- A trace that runs from the initial state reaches a reachable state. -/
theorem runTrace_reachable {T : Type} [Inhabited T] {n : Nat} {ctxErr : String}
    {tr : List (REvent T)} {s : RaceState T}
    (h : runTrace ctxErr (raceInit T n) tr = some s) : RaceReachable n ctxErr s := by
  suffices haux : ∀ (tr : List (REvent T)) (s0 s1 : RaceState T),
      RaceReachable n ctxErr s0 → runTrace ctxErr s0 tr = some s1 →
      RaceReachable n ctxErr s1 by
    exact haux tr _ s .init h
  intro tr
  induction tr with
  | nil =>
    intro s0 s1 h0 h1
    injection h1 with h1
    subst h1
    exact h0
  | cons e tr ih =>
    intro s0 s1 h0 h1
    simp only [runTrace] at h1
    split at h1
    · rename_i s2 hstep
      exact ih s2 s1 (.step h0 hstep) h1
    · cases h1

/-- C3: when `Race` returns via the completion channel, the returned
`Result` is exactly the `Result` the winning worker produced — its `Value`
and `Err` are that worker's own return values (the `sent` status stores
the result built from the worker's `finish` event) and its `Index` is that
worker's position in the input — and the separate error return value is
exactly that worker's error. -/
theorem race_winner_correctness {T : Type} [Inhabited T] (n : Nat)
    (ctxErr : String) (s : RaceState T) (r : Result T) (e : Option String)
    (hreach : RaceReachable n ctxErr s)
    (hret : s.returned = some (.chanWin, r, e)) :
    e = r.Err ∧ ∃ i : Nat, i < n ∧ s.workers[i]? = some (WStatus.sent r) ∧
      r.Index = (i : Int) := by
  have hinv := raceReachable_inv hreach
  obtain ⟨he, i, hi⟩ := hinv.retChan r e hret
  have hlen := (List.getElem?_eq_some.mp hi).1
  refine ⟨he, i, ?_, hi, ?_⟩
  · rw [← hinv.len]
    exact hlen
  · exact hinv.idx i (WStatus.sent r) hi r rfl

/-- C3 witness: worker 0 of two finishes with `(true, nil)`, publishes, and
the main `select` receives it. -/
theorem race_winner_correctness_witness :
    (none : Option String) = (⟨true, none, 0⟩ : Result Bool).Err ∧
    ∃ i : Nat, i < 2 ∧
      (RaceState.workers
        ⟨[WStatus.sent ⟨true, none, 0⟩, WStatus.running], none, true, false,
          some (.chanWin, ⟨true, none, 0⟩, none)⟩)[i]?
        = some (WStatus.sent (⟨true, none, 0⟩ : Result Bool)) ∧
      (⟨true, none, 0⟩ : Result Bool).Index = (i : Int) :=
  race_winner_correctness 2 "canceled" _ _ _
    (@runTrace_reachable Bool _ 2 "canceled"
      [.finish 0 true none, .send 0, .mainRecv] _ (by decide))
    (by decide)

/-- C4: if, when `Race` returns, no worker's publish had succeeded, the
return went through the `ctx.Done()` arm — which requires the caller's
context to be cancelled — and yields a `Result` with the zero value,
`Index = -1` and the context's cancellation error, the same error being
the second return value. -/
theorem race_external_cancellation {T : Type} [Inhabited T] (n : Nat)
    (ctxErr : String) (s : RaceState T) (br : RetBranch) (r : Result T)
    (e : Option String) (hreach : RaceReachable n ctxErr s)
    (hret : s.returned = some (br, r, e)) (hns : noSent s = true) :
    br = .ctxDone ∧ r = ⟨default, some ctxErr, -1⟩ ∧ e = some ctxErr ∧
      s.ctxCancelled = true := by
  have hinv := raceReachable_inv hreach
  cases br with
  | chanWin =>
    obtain ⟨-, i, hi⟩ := hinv.retChan r e hret
    have hmem := mem_of_get? hi
    have := List.all_eq_true.mp hns _ hmem
    simp [WStatus.isSent] at this
  | ctxDone =>
    obtain ⟨h1, h2, h3⟩ := hinv.retCtx r e hret
    exact ⟨rfl, h1, h2, h3⟩

/-- C4 witness: the caller's context is cancelled before the single worker
finishes; the main `select` takes the `ctx.Done()` arm. -/
theorem race_external_cancellation_witness :
    RetBranch.ctxDone = RetBranch.ctxDone ∧
    (⟨false, some "boom", -1⟩ : Result Bool) = ⟨default, some "boom", -1⟩ ∧
    (some "boom" : Option String) = some "boom" ∧
    (RaceState.ctxCancelled
      (⟨[WStatus.running], none, true, true,
        some (.ctxDone, ⟨false, some "boom", -1⟩, some "boom")⟩ : RaceState Bool))
      = true :=
  race_external_cancellation 1 "boom" _ _ _ _
    (@runTrace_reachable Bool _ 1 "boom" [.extCancel, .mainCtxDone] _ (by decide))
    (by decide) (by decide)

/-- C6: `Race` with zero workers returns the zero-valued `Result` (zero
value, nil error, index 0) and a nil error on every schedule — including
the empty one, so it never blocks and consults no worker event at all. -/
theorem race_empty_input (T : Type) [Inhabited T] (ctxErr : String)
    (tr : List (REvent T)) :
    Race T 0 ctxErr tr = some (⟨default, none, 0⟩, none) := by
  unfold Race
  rw [if_pos rfl]

/-- C8: on every return of `Race` (winner with nil error, winner with
non-nil error, or external context cancellation), the derived child scope
is cancelled by the time `Race` returns: a successful publish calls
`cancel()`, and both return arms run the deferred `cancel()`. -/
theorem race_scope_cancelled_on_return {T : Type} [Inhabited T] (n : Nat)
    (ctxErr : String) (s : RaceState T) (_hn : 0 < n)
    (hreach : RaceReachable n ctxErr s) (hret : s.returned ≠ none) :
    s.raceCancelled = true :=
  (raceReachable_inv hreach).retCancel hret

/-- C8 witness: a one-worker race that returned through the channel; the
child scope is cancelled. -/
theorem race_scope_cancelled_on_return_witness :
    RaceState.raceCancelled
      (⟨[WStatus.sent ⟨true, none, 0⟩], none, true, false,
        some (.chanWin, ⟨true, none, 0⟩, none)⟩ : RaceState Bool) = true :=
  race_scope_cancelled_on_return 1 "canceled" _ (by decide)
    (@runTrace_reachable Bool _ 1 "canceled"
      [.finish 0 true none, .send 0, .mainRecv] _ (by decide))
    (by decide)

/-- C9: whenever `Race` returns, the second return value equals the `Err`
field of the returned `Result`: both nil on the empty-input path, both the
winner's error on the channel path, both the context's cancellation error
on the cancellation path. -/
theorem race_error_matches_result {T : Type} [Inhabited T] (n : Nat)
    (ctxErr : String) (tr : List (REvent T)) (r : Result T) (e : Option String)
    (h : Race T n ctxErr tr = some (r, e)) : e = r.Err := by
  unfold Race at h
  by_cases hn : n = 0
  · rw [if_pos hn] at h
    injection h with h
    injection h with h1 h2
    rw [← h1, ← h2]
  · rw [if_neg hn] at h
    split at h
    · rename_i s hrun
      split at h
      · rename_i x hret
        injection h with h
        injection h with h1 h2
        obtain ⟨br, r0, e0⟩ := x
        have hinv := raceReachable_inv (runTrace_reachable hrun)
        cases br with
        | chanWin =>
          have := (hinv.retChan r0 e0 hret).1
          rw [← h1, ← h2]
          exact this
        | ctxDone =>
          obtain ⟨hr0, he0, -⟩ := hinv.retCtx r0 e0 hret
          rw [← h1, ← h2, hr0, he0]
      · cases h
    · cases h

/-- C9 witness: a one-worker race whose worker fails with `"bad"`; the
returned error equals the `Err` field of the returned `Result`. -/
theorem race_error_matches_result_witness :
    (some "bad" : Option String) = (⟨false, some "bad", 0⟩ : Result Bool).Err :=
  race_error_matches_result 1 "canceled"
    [.finish 0 false (some "bad"), .send 0, .mainRecv]
    ⟨false, some "bad", 0⟩ (some "bad") (by decide)

/-- Once the main `select` has returned, no later event changes the
recorded return value. -/
theorem raceStep_returned_mono {T : Type} [Inhabited T] (ctxErr : String)
    (s s' : RaceState T) (e : REvent T)
    (x : RetBranch × Result T × Option String)
    (hstep : raceStep ctxErr s e = some s') (hret : s.returned = some x) :
    s'.returned = some x := by
  cases e with
  | finish i v e0 =>
    simp only [raceStep] at hstep
    split at hstep <;> cases hstep
    exact hret
  | send i =>
    simp only [raceStep] at hstep
    split at hstep <;> cases hstep
    exact hret
  | giveUp i =>
    simp only [raceStep] at hstep
    split at hstep <;> cases hstep
    exact hret
  | extCancel =>
    simp only [raceStep] at hstep
    split at hstep <;> cases hstep
    exact hret
  | mainRecv =>
    simp only [raceStep] at hstep
    split at hstep <;> cases hstep
    rename_i hret0 _
    rw [hret0] at hret
    cases hret
  | mainCtxDone =>
    simp only [raceStep] at hstep
    split at hstep <;> cases hstep
    rename_i hret0 _
    rw [hret0] at hret
    cases hret

/-- C7 counterexample: an execution of `Race` over two workers in which TWO
workers' publishes to the completion channel succeed, refuting "at most one
worker's publish succeeds".  Worker 0 publishes and wins; the main `select`
receives (draining the capacity-1 buffer) and returns; worker 1 then
finishes, its send finds buffer space and also succeeds (in Go, the send
case of its `select` is ready again, even though `raceCtx` is cancelled).
The caller still never observes the second publish. -/
theorem race_double_publish_counterexample :
    RaceReachable 2 "canceled"
      (⟨[WStatus.sent ⟨true, none, 0⟩, WStatus.sent ⟨false, none, 1⟩],
        some ⟨false, none, 1⟩, true, false,
        some (.chanWin, ⟨true, none, 0⟩, none)⟩ : RaceState Bool) ∧
    sentCount
      (⟨[WStatus.sent ⟨true, none, 0⟩, WStatus.sent ⟨false, none, 1⟩],
        some ⟨false, none, 1⟩, true, false,
        some (.chanWin, ⟨true, none, 0⟩, none)⟩ : RaceState Bool) = 2 :=
  ⟨@runTrace_reachable Bool _ 2 "canceled"
      [.finish 0 true none, .send 0, .mainRecv, .finish 1 false none, .send 1]
      _ (by decide),
   by decide⟩

/-- C7 (amended): the caller never observes more than one worker `Result`:
while `Race` has not returned, at most one publish to the completion
channel has succeeded (a second send needs the buffer drained, which only
the main `select`'s receive does), and once `Race` has returned its
recorded return value is never changed by later events; any further
successful publish happens after the return and is never observed. -/
theorem race_single_observation {T : Type} [Inhabited T] (n : Nat)
    (ctxErr : String) (s : RaceState T) (hreach : RaceReachable n ctxErr s) :
    (s.returned = none → sentCount s ≤ 1) ∧
    (∀ (e : REvent T) (s' : RaceState T)
        (x : RetBranch × Result T × Option String),
      raceStep ctxErr s e = some s' → s.returned = some x →
        s'.returned = some x) := by
  refine ⟨?_, fun e s' x hstep hx => raceStep_returned_mono ctxErr s s' e x hstep hx⟩
  intro hret
  rw [(raceReachable_inv hreach).sentBound hret]
  by_cases h : s.chan.isSome <;> simp [h]

/-- C7 (amended) witness: after worker 0's publish but before the main
`select` runs, the publish count is at most one. -/
theorem race_single_observation_witness :
    (RaceState.returned
        (⟨[WStatus.sent ⟨true, none, 0⟩, WStatus.running],
          some ⟨true, none, 0⟩, true, false, none⟩ : RaceState Bool) = none →
      sentCount
        (⟨[WStatus.sent ⟨true, none, 0⟩, WStatus.running],
          some ⟨true, none, 0⟩, true, false, none⟩ : RaceState Bool) ≤ 1) ∧
    (∀ (e : REvent Bool) (s' : RaceState Bool)
        (x : RetBranch × Result Bool × Option String),
      raceStep "canceled"
          (⟨[WStatus.sent ⟨true, none, 0⟩, WStatus.running],
            some ⟨true, none, 0⟩, true, false, none⟩ : RaceState Bool) e
          = some s' →
        RaceState.returned
          (⟨[WStatus.sent ⟨true, none, 0⟩, WStatus.running],
            some ⟨true, none, 0⟩, true, false, none⟩ : RaceState Bool) = some x →
        s'.returned = some x) :=
  race_single_observation 2 "canceled" _
    (@runTrace_reachable Bool _ 2 "canceled"
      [.finish 0 true none, .send 0] _ (by decide))

end Gocrc
